import Mathlib

/-!
Verification development for the retrieval and ranking engine of the
study-agent RAG pipeline (`src/python/rag/`).

The Python modules are shallowly embedded as Lean definitions:

* floating point scores are modelled as rationals (`ℚ`);
* `math.log` is abstracted as a function parameter `logQ : ℚ → ℚ`, since the
  transcendental logarithm is not representable exactly; every statement that
  mentions an IDF value quantifies over `logQ`, so the theorems hold for every
  interpretation of the logarithm (in particular the real one);
* Python dictionaries are modelled as insertion-ordered association lists,
  matching the insertion-order iteration semantics the code relies on;
* Python's stable `sorted(..., reverse=True)` is modelled with
  `List.insertionSort`, which is likewise stable.
-/

namespace StudyRag

set_option maxRecDepth 8000

/-- Metadata values attached to documents (Python carries them in untyped
dicts; the values used by the embedded code are naturals, rationals and
strings). -/
inductive MetaVal where
  | natV (n : ℕ)
  | ratV (q : ℚ)
  | strV (s : String)
deriving DecidableEq

/-- Embedding of `langchain.schema.Document`: page content plus a metadata
dictionary (insertion-ordered association list). -/
structure Document where
  page_content : String
  metadata : List (String × MetaVal) := []
deriving DecidableEq

/-- The default document used to totalise list indexing (Python indexing in
`KeywordSearcher.search` is always in bounds, which the theorems record). -/
def defaultDoc : Document := { page_content := "", metadata := [] }

/-- Dictionary lookup on an association list (Python `dict.get`). -/
def dictFind (m : List (String × MetaVal)) (key : String) : Option MetaVal :=
  match m with
  | [] => none
  | (k, v) :: rest => if k = key then some v else dictFind rest key

/-- Dictionary assignment `d[key] = v`: replaces the first binding of `key`
or appends a fresh binding at the end, as Python dicts do. -/
def dictSet (m : List (String × MetaVal)) (key : String) (v : MetaVal) :
    List (String × MetaVal) :=
  match m with
  | [] => [(key, v)]
  | (k, w) :: rest => if k = key then (k, v) :: rest else (k, w) :: dictSet rest key v

/-- Python `dict.update`: assign every binding of `kvs` in order. -/
def dictUpdate (m : List (String × MetaVal)) (kvs : List (String × MetaVal)) :
    List (String × MetaVal) :=
  kvs.foldl (fun acc kv => dictSet acc kv.1 kv.2) m

/-! ### Tokenization (`KeywordSearcher._tokenize`, retriever.py lines 35-38)

`re.findall(r"\b[a-z0-9]+\b", text.lower())`: on the lowercased text, a match
is a maximal run of word characters that consists entirely of `[a-z0-9]`
(a run containing an underscore has no word boundary inside it, so it yields
no token at all).  Word characters are approximated by ASCII alphanumerics
plus underscore, and `str.lower` by `Char.toLower`; this is exact on ASCII
input. -/

/-- Characters matched by the character class `[a-z0-9]`. -/
def isLowerAlnum (c : Char) : Bool :=
  (decide ('a' ≤ c) && decide (c ≤ 'z')) || (decide ('0' ≤ c) && decide (c ≤ '9'))

/-- Word characters (`\w`), restricted to ASCII, after lowercasing. -/
def isWordChar (c : Char) : Bool :=
  isLowerAlnum c || c == '_'

/-- Splits a character list into its maximal runs of word characters
(`acc` holds the current run, reversed). -/
def wordRunsAux (acc : List Char) : List Char → List (List Char)
  | [] => if acc.isEmpty then [] else [acc.reverse]
  | c :: cs =>
    if isWordChar c then wordRunsAux (c :: acc) cs
    else if acc.isEmpty then wordRunsAux [] cs
    else acc.reverse :: wordRunsAux [] cs

/-- Embedding of `KeywordSearcher._tokenize`. -/
def tokenize (text : String) : List String :=
  ((wordRunsAux [] (text.data.map Char.toLower)).filter
    (fun r => r.all isLowerAlnum)).map (fun r => String.mk r)

/-! ### KeywordSearcher (retriever.py lines 24-102)

The Python object stores `_documents`, `_doc_term_freqs` (one `Counter` per
document) and `_idf`.  A `Counter` over the token list is recoverable from
the token list itself (`tf[t] = count`, `sum(tf.values()) = length`), so the
state keeps the token lists; `_idf` is determined by the same indexing call
that sets `_doc_term_freqs`, and is embedded as the function `idfLookup`
over that state. -/

/-- State of a `KeywordSearcher`: the indexed documents and, per document,
its token list (the information content of its term-frequency `Counter`). -/
structure KeywordSearcher where
  documents : List Document
  docTokens : List (List String)

/-- A freshly constructed `KeywordSearcher()`. -/
def KeywordSearcher.emptyKS : KeywordSearcher := ⟨[], []⟩

/-- Embedding of `KeywordSearcher.index`: full rebuild from `documents`. -/
def KeywordSearcher.index (_ks : KeywordSearcher) (documents : List Document) :
    KeywordSearcher :=
  { documents := documents
    docTokens := documents.map (fun d => tokenize d.page_content) }

/-- Document frequency of a term: the number of indexed documents whose token
multiset contains it (retriever.py lines 52-54). -/
def KeywordSearcher.df (ks : KeywordSearcher) (term : String) : ℕ :=
  (ks.docTokens.filter (fun toks => decide (term ∈ toks))).length

/-- The smoothed IDF value stored for a term with document frequency `dfT`
in a corpus of `n` documents: `ln((n + 1) / (df + 1)) + 1`
(retriever.py lines 57-61). -/
def idfValue (logQ : ℚ → ℚ) (n dfT : ℕ) : ℚ :=
  logQ (((n : ℚ) + 1) / ((dfT : ℚ) + 1)) + 1

/-- Embedding of `self._idf.get(term, 1.0)`: the `_idf` dict binds exactly
the terms with positive document frequency, and the lookup defaults
to `1.0` (retriever.py line 88). -/
def KeywordSearcher.idfLookup (logQ : ℚ → ℚ) (ks : KeywordSearcher)
    (term : String) : ℚ :=
  if ks.df term = 0 then 1 else idfValue logQ ks.documents.length (ks.df term)

/-- TF-IDF score of one document against the query token list
(retriever.py lines 82-89): `doc_len = sum(tf.values()) or 1`, and each
query token occurring in the document contributes
`(tf[term] / doc_len) * idf(term)`.  Query tokens are iterated as a list,
so a repeated query token contributes once per repetition. -/
def docScore (logQ : ℚ → ℚ) (ks : KeywordSearcher) (queryTokens : List String)
    (toks : List String) : ℚ :=
  (queryTokens.map (fun t =>
    if t ∈ toks then
      ((toks.count t : ℚ) / (max toks.length 1 : ℕ)) * ks.idfLookup logQ t
    else 0)).sum

/-- The order used for `sorted(enumerate(scores), key=lambda x: x[1],
reverse=True)`: a stable descending sort of `(index, score)` pairs is the
unique sort under the linear order "higher score first, and on equal scores
lower original index first". -/
def scoreOrder (p q : ℕ × ℚ) : Prop :=
  q.2 < p.2 ∨ (p.2 = q.2 ∧ p.1 ≤ q.1)

instance : DecidableRel scoreOrder := fun p q => by
  unfold scoreOrder; exact inferInstance

instance : IsTotal (ℕ × ℚ) scoreOrder := by
  constructor
  intro p q
  rcases lt_trichotomy p.2 q.2 with h | h | h
  · exact Or.inr (Or.inl h)
  · rcases Nat.le_total p.1 q.1 with hn | hn
    · exact Or.inl (Or.inr ⟨h, hn⟩)
    · exact Or.inr (Or.inr ⟨h.symm, hn⟩)
  · exact Or.inl (Or.inl h)

instance : IsTrans (ℕ × ℚ) scoreOrder := by
  constructor
  intro p q r hpq hqr
  rcases hpq with h1 | ⟨h1, h1i⟩
  · rcases hqr with h2 | ⟨h2, _⟩
    · exact Or.inl (h2.trans h1)
    · exact Or.inl (by rw [← h2]; exact h1)
  · rcases hqr with h2 | ⟨h2, h2i⟩
    · exact Or.inl (by rw [h1]; exact h2)
    · exact Or.inr ⟨h1.trans h2, h1i.trans h2i⟩

/-- The `(index, score)` stage of `KeywordSearcher.search`
(retriever.py lines 74-100): guard the empty corpus and the empty query,
score every document, stable-sort by descending score, truncate to `top_k`,
and drop non-positive scores. -/
def searchIndexed (logQ : ℚ → ℚ) (ks : KeywordSearcher) (query : String)
    (topK : ℕ) : List (ℕ × ℚ) :=
  if ks.documents.isEmpty then []
  else
    let queryTokens := tokenize query
    if queryTokens.isEmpty then []
    else
      let scores := ks.docTokens.map (docScore logQ ks queryTokens)
      let indexed := (List.range scores.length).map (fun i => (i, scores.getD i 0))
      ((List.insertionSort scoreOrder indexed).take topK).filter
        (fun p => decide (0 < p.2))

/-- Embedding of `KeywordSearcher.search`: the `(index, score)` stage with
each index resolved to its document. -/
def KeywordSearcher.search (logQ : ℚ → ℚ) (ks : KeywordSearcher) (query : String)
    (topK : ℕ) : List (Document × ℚ) :=
  (searchIndexed logQ ks query topK).map
    (fun p => (ks.documents.getD p.1 defaultDoc, p.2))

/-- The score the specification ascribes to document `i` of the corpus: the
sum over query tokens occurring in the document of
`(tf(t) / doc_length) * idf(t)` with `idf(t) = ln((N + 1) / (df(t) + 1)) + 1`,
`N` the corpus size and `df(t)` the number of corpus documents containing
`t`.  This follows the claim's wording, not the code. -/
def claimScore (logQ : ℚ → ℚ) (docs : List Document) (query : String)
    (i : ℕ) : ℚ :=
  let toks := tokenize (docs.getD i defaultDoc).page_content
  ((tokenize query).map (fun t =>
    if t ∈ toks then
      ((toks.count t : ℚ) / (toks.length : ℚ)) *
        (logQ (((docs.length : ℚ) + 1) /
          (((docs.filter (fun d => decide (t ∈ tokenize d.page_content))).length : ℚ) + 1)) + 1)
    else 0)).sum

lemma searchIndexed_mem {logQ : ℚ → ℚ} {ks : KeywordSearcher} {query : String}
    {topK : ℕ} {p : ℕ × ℚ} (hp : p ∈ searchIndexed logQ ks query topK) :
    p.1 < ks.docTokens.length
      ∧ p.2 = docScore logQ ks (tokenize query) (ks.docTokens.getD p.1 [])
      ∧ 0 < p.2 := by
  simp only [searchIndexed] at hp
  split at hp
  · exact absurd hp (List.not_mem_nil p)
  split at hp
  · exact absurd hp (List.not_mem_nil p)
  obtain ⟨hp1, hpos⟩ := List.mem_filter.mp hp
  have hp2 : p ∈ List.insertionSort scoreOrder
      ((List.range (ks.docTokens.map (docScore logQ ks (tokenize query))).length).map
        (fun i => (i, (ks.docTokens.map (docScore logQ ks (tokenize query))).getD i 0))) :=
    (List.take_sublist _ _).subset hp1
  have hp3 := (List.mem_insertionSort scoreOrder).mp hp2
  obtain ⟨i, hir, hpe⟩ := List.mem_map.mp hp3
  have hilt : i < (ks.docTokens.map (docScore logQ ks (tokenize query))).length :=
    List.mem_range.mp hir
  have hilt2 : i < ks.docTokens.length := by simpa using hilt
  subst hpe
  refine ⟨hilt2, ?_, of_decide_eq_true hpos⟩
  rw [List.getD_eq_getElem _ _ hilt, List.getElem_map, List.getD_eq_getElem _ _ hilt2]

lemma searchIndexed_length_le (logQ : ℚ → ℚ) (ks : KeywordSearcher)
    (query : String) (topK : ℕ) :
    (searchIndexed logQ ks query topK).length ≤ topK := by
  simp only [searchIndexed]
  split
  · exact Nat.zero_le _
  split
  · exact Nat.zero_le _
  refine le_trans (List.length_filter_le _ _) ?_
  rw [List.length_take]
  exact min_le_left _ _

lemma searchIndexed_pairwise (logQ : ℚ → ℚ) (ks : KeywordSearcher)
    (query : String) (topK : ℕ) :
    List.Pairwise (fun a b : ℕ × ℚ => b.2 < a.2 ∨ (a.2 = b.2 ∧ a.1 < b.1))
      (searchIndexed logQ ks query topK) := by
  simp only [searchIndexed]
  split
  · exact List.Pairwise.nil
  split
  · exact List.Pairwise.nil
  have hsub : (((List.insertionSort scoreOrder
      ((List.range (ks.docTokens.map (docScore logQ ks (tokenize query))).length).map
        (fun i => (i, (ks.docTokens.map (docScore logQ ks (tokenize query))).getD i 0)))).take
          topK).filter (fun p => decide (0 < p.2))).Sublist
      (List.insertionSort scoreOrder
      ((List.range (ks.docTokens.map (docScore logQ ks (tokenize query))).length).map
        (fun i => (i, (ks.docTokens.map (docScore logQ ks (tokenize query))).getD i 0)))) :=
    (List.filter_sublist _).trans (List.take_sublist _ _)
  have hsorted := (List.sorted_insertionSort scoreOrder
      ((List.range (ks.docTokens.map (docScore logQ ks (tokenize query))).length).map
        (fun i => (i, (ks.docTokens.map (docScore logQ ks (tokenize query))).getD i 0)))).sublist
      hsub
  have hpw0 : List.Pairwise (fun a b : ℕ × ℚ => a.1 ≠ b.1)
      ((List.range (ks.docTokens.map (docScore logQ ks (tokenize query))).length).map
        (fun i => (i, (ks.docTokens.map (docScore logQ ks (tokenize query))).getD i 0))) := by
    rw [List.pairwise_map]
    exact List.nodup_range _
  have hfst0 : (((List.range (ks.docTokens.map (docScore logQ ks (tokenize query))).length).map
      (fun i => (i, (ks.docTokens.map (docScore logQ ks (tokenize query))).getD i 0))).map
        Prod.fst).Nodup :=
    List.pairwise_map.mpr hpw0
  have hfst1 : ((List.insertionSort scoreOrder
      ((List.range (ks.docTokens.map (docScore logQ ks (tokenize query))).length).map
        (fun i => (i, (ks.docTokens.map (docScore logQ ks (tokenize query))).getD i 0)))).map
          Prod.fst).Nodup :=
    (((List.perm_insertionSort scoreOrder _).map Prod.fst).nodup_iff).mpr hfst0
  have hfst2 := (hsub.map Prod.fst).nodup hfst1
  have hne := List.pairwise_map.mp hfst2
  exact (hsorted.and hne).imp (fun hx => by
    rcases hx with ⟨hso | ⟨heq, hle⟩, hnef⟩
    · exact Or.inl hso
    · exact Or.inr ⟨heq, lt_of_le_of_ne hle hnef⟩)

lemma docScore_eq_claimScore (logQ : ℚ → ℚ) (docs : List Document)
    (query : String) {i : ℕ} (hi : i < docs.length) :
    docScore logQ (KeywordSearcher.emptyKS.index docs) (tokenize query)
      ((KeywordSearcher.emptyKS.index docs).docTokens.getD i [])
      = claimScore logQ docs query i := by
  have hdt : (KeywordSearcher.emptyKS.index docs).docTokens
      = docs.map (fun d => tokenize d.page_content) := rfl
  have hlen : i < (docs.map (fun d => tokenize d.page_content)).length := by simpa using hi
  have htoks : (KeywordSearcher.emptyKS.index docs).docTokens.getD i []
      = tokenize (docs.getD i defaultDoc).page_content := by
    rw [hdt, List.getD_eq_getElem _ _ hlen, List.getElem_map, List.getD_eq_getElem _ _ hi]
  rw [docScore, claimScore, htoks]
  refine congrArg _ (List.map_congr_left ?_)
  intro t _
  by_cases hmem : t ∈ tokenize (docs.getD i defaultDoc).page_content
  · rw [if_pos hmem, if_pos hmem]
    have hlp : 1 ≤ (tokenize (docs.getD i defaultDoc).page_content).length :=
      List.length_pos.mpr (List.ne_nil_of_mem hmem)
    have hmax : max (tokenize (docs.getD i defaultDoc).page_content).length 1
        = (tokenize (docs.getD i defaultDoc).page_content).length :=
      Nat.max_eq_left hlp
    have hdf : (KeywordSearcher.emptyKS.index docs).df t
        = (docs.filter (fun d => decide (t ∈ tokenize d.page_content))).length := by
      rw [KeywordSearcher.df, hdt, List.filter_map, List.length_map]
      rfl
    have htmem : tokenize (docs.getD i defaultDoc).page_content
        ∈ (KeywordSearcher.emptyKS.index docs).docTokens := by
      rw [← htoks, List.getD_eq_getElem _ _ (by rw [hdt]; exact hlen)]
      exact List.getElem_mem _
    have hdfpos : (KeywordSearcher.emptyKS.index docs).df t ≠ 0 := by
      have : tokenize (docs.getD i defaultDoc).page_content
          ∈ (KeywordSearcher.emptyKS.index docs).docTokens.filter
            (fun toks => decide (t ∈ toks)) :=
        List.mem_filter.mpr ⟨htmem, by simpa using hmem⟩
      have hplen := List.length_pos.mpr (List.ne_nil_of_mem this)
      rw [KeywordSearcher.df]
      omega
    rw [KeywordSearcher.idfLookup, if_neg hdfpos, idfValue, hdf, hmax]
    rfl
  · rw [if_neg hmem, if_neg hmem]

/-- Claim C1: for every corpus indexed via `KeywordSearcher.index`, every
query and every `top_k`, `KeywordSearcher.search` returns at most `top_k`
pairs; every returned pair is a corpus document with its claimed TF-IDF
score (which is strictly positive — zero-score documents are excluded);
results are ordered by non-increasing score with ties kept in original
corpus order (the pairwise condition on the underlying index/score list);
and an empty corpus or a tokenless query yields the empty list. -/
theorem C1_keyword_search (logQ : ℚ → ℚ) (docs : List Document) (query : String)
    (topK : ℕ) :
    (KeywordSearcher.search logQ (KeywordSearcher.emptyKS.index docs) query topK).length
        ≤ topK
    ∧ (∀ p ∈ KeywordSearcher.search logQ (KeywordSearcher.emptyKS.index docs) query topK,
        ∃ i : ℕ, i < docs.length ∧ p.1 = docs.getD i defaultDoc ∧ 0 < p.2
          ∧ p.2 = claimScore logQ docs query i)
    ∧ List.Pairwise (fun a b : ℕ × ℚ => b.2 < a.2 ∨ (a.2 = b.2 ∧ a.1 < b.1))
        (searchIndexed logQ (KeywordSearcher.emptyKS.index docs) query topK)
    ∧ KeywordSearcher.search logQ (KeywordSearcher.emptyKS.index docs) query topK
        = (searchIndexed logQ (KeywordSearcher.emptyKS.index docs) query topK).map
            (fun p => (docs.getD p.1 defaultDoc, p.2))
    ∧ (docs = [] →
        KeywordSearcher.search logQ (KeywordSearcher.emptyKS.index docs) query topK = [])
    ∧ (tokenize query = [] →
        KeywordSearcher.search logQ (KeywordSearcher.emptyKS.index docs) query topK = []) := by
  refine ⟨?_, ?_, searchIndexed_pairwise logQ _ query topK, rfl, ?_, ?_⟩
  · rw [KeywordSearcher.search, List.length_map]
    exact searchIndexed_length_le logQ _ query topK
  · intro p hp
    rw [KeywordSearcher.search] at hp
    obtain ⟨q, hq, hpe⟩ := List.mem_map.mp hp
    obtain ⟨hq1, hq2, hq3⟩ := searchIndexed_mem hq
    have hq1d : q.1 < docs.length := by
      have h := hq1
      rw [show (KeywordSearcher.emptyKS.index docs).docTokens
          = docs.map (fun d => tokenize d.page_content) from rfl, List.length_map] at h
      exact h
    refine ⟨q.1, hq1d, ?_, ?_, ?_⟩
    · rw [← hpe]
      rfl
    · rw [← hpe]; exact hq3
    · rw [← hpe]
      exact hq2.trans (docScore_eq_claimScore logQ docs query hq1d)
  · intro h
    subst h
    rfl
  · intro h
    simp [KeywordSearcher.search, searchIndexed, h]

/-- Witness for C1 at concrete inputs: instantiates the theorem at an empty
corpus and at a tokenless query and discharges the corresponding hypotheses
concretely. -/
theorem C1_keyword_search_witness :
    (([] : List Document) = []
      ∧ KeywordSearcher.search (fun _ => 0)
          (KeywordSearcher.emptyKS.index []) "apple" 5 = [])
    ∧ (tokenize "" = []
      ∧ KeywordSearcher.search (fun _ => 0)
          (KeywordSearcher.emptyKS.index [⟨"apple banana", []⟩]) "" 5 = []) := by
  refine ⟨⟨rfl, ?_⟩, ⟨by decide, ?_⟩⟩
  · exact (C1_keyword_search (fun _ => 0) [] "apple" 5).2.2.2.2.1 rfl
  · exact (C1_keyword_search (fun _ => 0) [⟨"apple banana", []⟩] "" 5).2.2.2.2.2 (by decide)

/-! ### Reciprocal Rank Fusion (`HybridRetriever._reciprocal_rank_fusion`,
retriever.py lines 234-275)

`doc_scores` is a Python dict keyed by the first 200 characters of the chunk
content; it is embedded as an insertion-ordered association list of
`(key, document, score)` entries.  Each ranked list is walked with
`enumerate`, adding `weight / (rrf_k + rank + 1)` to the entry of the
document's key (keeping the first-seen document object), and the dict's
values are stable-sorted by descending fused score and truncated. -/

/-- Python slicing `s[:n]` (by code points, like Lean's `List Char`). -/
def strTake (s : String) (n : ℕ) : String := String.mk (s.data.take n)

/-- The merge identity of a document: `doc.page_content[:200]`. -/
def key200 (d : Document) : String := strTake d.page_content 200

/-- One dict update `doc_scores[key] = (doc, old + sc)` / insert of a fresh
`(key, doc, sc)` entry, preserving insertion order. -/
def upsert : List (String × Document × ℚ) → String → Document → ℚ →
    List (String × Document × ℚ)
  | [], key, d, sc => [(key, d, sc)]
  | e :: rest, key, d, sc =>
    if e.1 = key then (e.1, e.2.1, e.2.2 + sc) :: rest
    else e :: upsert rest key d sc

/-- The `for rank, (doc, _score) in enumerate(results)` loop adding one
ranked list into the score dict, with `rank` starting at `r`. -/
def addListAux (w : ℚ) (rrfK : ℕ) : ℕ → List (Document × ℚ) →
    List (String × Document × ℚ) → List (String × Document × ℚ)
  | _, [], m => m
  | r, p :: rest, m =>
    addListAux w rrfK (r + 1) rest
      (upsert m (key200 p.1) p.1 (w / ((rrfK : ℚ) + (r : ℚ) + 1)))

/-- The order used for `sorted(doc_scores.values(), key=lambda x: x[1],
reverse=True)`: descending fused score. -/
def fusedOrder (p q : Document × ℚ) : Prop := q.2 ≤ p.2

instance : DecidableRel fusedOrder := fun p q => by
  unfold fusedOrder; exact inferInstance

instance : IsTotal (Document × ℚ) fusedOrder :=
  ⟨fun p q => le_total q.2 p.2⟩

instance : IsTrans (Document × ℚ) fusedOrder :=
  ⟨fun _ _ _ h1 h2 => le_trans h2 h1⟩

/-- Embedding of `HybridRetriever._reciprocal_rank_fusion`. -/
def reciprocal_rank_fusion (semanticResults keywordResults : List (Document × ℚ))
    (semanticWeight keywordWeight : ℚ) (topK rrfK : ℕ) : List (Document × ℚ) :=
  ((List.insertionSort fusedOrder
    ((addListAux keywordWeight rrfK 0 keywordResults
      (addListAux semanticWeight rrfK 0 semanticResults [])).map
        (fun e => (e.2.1, e.2.2)))).take topK)

/-- The claimed RRF contribution of one ranked list to a merge key: the sum
of `w / (rrf_k + rank + 1)` over the positions (starting at `r`) whose
document has that key.  This follows the claim's wording. -/
def contribAux (w : ℚ) (rrfK : ℕ) : ℕ → List (Document × ℚ) → String → ℚ
  | _, [], _ => 0
  | r, p :: rest, key =>
    (if key200 p.1 = key then w / ((rrfK : ℚ) + (r : ℚ) + 1) else 0)
      + contribAux w rrfK (r + 1) rest key

/-- The claimed fused score of a merge key: its accumulated contributions
from the semantic list and the keyword list, ranks starting at 0. -/
def claimFusedScore (semanticWeight keywordWeight : ℚ) (rrfK : ℕ)
    (semanticResults keywordResults : List (Document × ℚ)) (key : String) : ℚ :=
  contribAux semanticWeight rrfK 0 semanticResults key
    + contribAux keywordWeight rrfK 0 keywordResults key

/-- Total score held by a key in the association list (with distinct keys,
the score of its unique entry). -/
def keyScore : List (String × Document × ℚ) → String → ℚ
  | [], _ => 0
  | e :: rest, key => (if e.1 = key then e.2.2 else 0) + keyScore rest key

/-- Keys of the association list, in insertion order. -/
def keysOf (m : List (String × Document × ℚ)) : List String :=
  m.map (fun e => e.1)

lemma keyScore_upsert (m : List (String × Document × ℚ)) (key : String)
    (d : Document) (sc : ℚ) (key2 : String) :
    keyScore (upsert m key d sc) key2
      = keyScore m key2 + (if key = key2 then sc else 0) := by
  induction m with
  | nil =>
    simp only [upsert, keyScore]
    ring
  | cons e rest ih =>
    by_cases h : e.1 = key
    · rw [upsert, if_pos h, keyScore, keyScore]
      by_cases h2 : e.1 = key2
      · rw [if_pos h2, if_pos h2, if_pos (show key = key2 by rw [← h, h2])]
        ring
      · rw [if_neg h2, if_neg h2, if_neg (show ¬key = key2 by rw [← h]; exact h2)]
        ring
    · rw [upsert, if_neg h, keyScore, keyScore, ih]
      ring

lemma keyScore_eq_zero {m : List (String × Document × ℚ)} {key : String}
    (h : key ∉ keysOf m) : keyScore m key = 0 := by
  induction m with
  | nil => rfl
  | cons e rest ih =>
    have h1 : e.1 ≠ key := fun hk => h (by simp [keysOf, hk])
    have h2 : key ∉ keysOf rest := fun hk => h (by
      simp only [keysOf, List.map_cons, List.mem_cons]
      exact Or.inr (by simpa [keysOf] using hk))
    rw [keyScore, if_neg h1, ih h2]
    ring

lemma mem_keyScore {m : List (String × Document × ℚ)}
    (hnd : (keysOf m).Nodup) {e : String × Document × ℚ} (he : e ∈ m) :
    e.2.2 = keyScore m e.1 := by
  induction m with
  | nil => exact absurd he (List.not_mem_nil e)
  | cons f rest ih =>
    have hnd0 : (f.1 :: keysOf rest).Nodup := hnd
    have hnd2 : (keysOf rest).Nodup := (List.nodup_cons.mp hnd0).2
    have hf : f.1 ∉ keysOf rest := (List.nodup_cons.mp hnd0).1
    rcases List.mem_cons.mp he with he1 | he2
    · subst he1
      rw [keyScore, if_pos rfl, keyScore_eq_zero hf]
      ring
    · have hne : f.1 ≠ e.1 := by
        intro hk
        exact hf (hk ▸ (List.mem_map.mpr ⟨e, he2, rfl⟩))
      rw [keyScore, if_neg hne, ih hnd2 he2]
      ring

lemma upsert_keys (m : List (String × Document × ℚ)) (key : String)
    (d : Document) (sc : ℚ) :
    keysOf (upsert m key d sc)
      = if key ∈ keysOf m then keysOf m else keysOf m ++ [key] := by
  induction m with
  | nil => simp [upsert, keysOf]
  | cons e rest ih =>
    have hkeys : keysOf (e :: rest) = e.1 :: keysOf rest := rfl
    by_cases h : e.1 = key
    · have hin : key ∈ keysOf (e :: rest) := by
        rw [hkeys, ← h]
        exact List.mem_cons_self _ _
      rw [if_pos hin, upsert, if_pos h, hkeys]
      rfl
    · have hup : keysOf (upsert (e :: rest) key d sc)
          = e.1 :: keysOf (upsert rest key d sc) := by
        rw [upsert, if_neg h]
        rfl
      by_cases h2 : key ∈ keysOf rest
      · have hin : key ∈ keysOf (e :: rest) := by
          rw [hkeys]
          exact List.mem_cons_of_mem _ h2
        rw [if_pos hin, hup, ih, if_pos h2, hkeys]
      · have hnin : key ∉ keysOf (e :: rest) := by
          rw [hkeys]
          intro hk
          rcases List.mem_cons.mp hk with hk1 | hk2
          · exact h hk1.symm
          · exact h2 hk2
        rw [if_neg hnin, hup, ih, if_neg h2, hkeys, List.cons_append]

lemma upsert_keys_nodup {m : List (String × Document × ℚ)}
    (hnd : (keysOf m).Nodup) (key : String) (d : Document) (sc : ℚ) :
    (keysOf (upsert m key d sc)).Nodup := by
  rw [upsert_keys]
  by_cases h : key ∈ keysOf m
  · rw [if_pos h]; exact hnd
  · rw [if_neg h]
    refine List.Nodup.append hnd (List.nodup_singleton key) ?_
    intro a ha hb
    rw [List.mem_singleton.mp hb] at ha
    exact h ha

lemma upsert_entry_key {m : List (String × Document × ℚ)}
    (hm : ∀ e ∈ m, e.1 = key200 e.2.1) {key : String} {d : Document}
    (hkey : key = key200 d) (sc : ℚ) :
    ∀ e ∈ upsert m key d sc, e.1 = key200 e.2.1 := by
  induction m with
  | nil =>
    intro e he
    rw [upsert] at he
    rw [List.mem_singleton.mp he]
    exact hkey
  | cons f rest ih =>
    intro e he
    rw [upsert] at he
    by_cases h : f.1 = key
    · rw [if_pos h] at he
      rcases List.mem_cons.mp he with he1 | he2
      · rw [he1]
        exact hm f (List.mem_cons_self f rest)
      · exact hm e (List.mem_cons_of_mem f he2)
    · rw [if_neg h] at he
      rcases List.mem_cons.mp he with he1 | he2
      · rw [he1]
        exact hm f (List.mem_cons_self f rest)
      · exact ih (fun x hx => hm x (List.mem_cons_of_mem f hx)) e he2

lemma addListAux_keyScore (w : ℚ) (rrfK : ℕ) (l : List (Document × ℚ)) :
    ∀ (r : ℕ) (m : List (String × Document × ℚ)) (key : String),
      keyScore (addListAux w rrfK r l m) key
        = keyScore m key + contribAux w rrfK r l key := by
  induction l with
  | nil => intro r m key; simp [addListAux, contribAux]
  | cons p rest ih =>
    intro r m key
    rw [addListAux, contribAux, ih, keyScore_upsert]
    ring

lemma addListAux_entry_key (w : ℚ) (rrfK : ℕ) (l : List (Document × ℚ)) :
    ∀ (r : ℕ) (m : List (String × Document × ℚ)),
      (∀ e ∈ m, e.1 = key200 e.2.1) →
      ∀ e ∈ addListAux w rrfK r l m, e.1 = key200 e.2.1 := by
  induction l with
  | nil => intro r m hm; exact hm
  | cons p rest ih =>
    intro r m hm
    rw [addListAux]
    exact ih (r + 1) _ (upsert_entry_key hm rfl _)

lemma addListAux_keys_nodup (w : ℚ) (rrfK : ℕ) (l : List (Document × ℚ)) :
    ∀ (r : ℕ) (m : List (String × Document × ℚ)),
      (keysOf m).Nodup → (keysOf (addListAux w rrfK r l m)).Nodup := by
  induction l with
  | nil => intro r m hm; exact hm
  | cons p rest ih =>
    intro r m hm
    rw [addListAux]
    exact ih (r + 1) _ (upsert_keys_nodup hm _ _ _)

lemma sortedValues_keys_nodup {M : List (String × Document × ℚ)}
    (hkeys : (keysOf M).Nodup) (hentry : ∀ e ∈ M, e.1 = key200 e.2.1)
    (topK : ℕ) :
    (((List.insertionSort fusedOrder (M.map (fun e => (e.2.1, e.2.2)))).take
        topK).map (fun p => key200 p.1)).Nodup := by
  have heq : ((M.map (fun e => (e.2.1, e.2.2))).map (fun p => key200 p.1))
      = keysOf M := by
    clear hkeys
    induction M with
    | nil => rfl
    | cons e rest ih =>
      have h1 := hentry e (List.mem_cons_self e rest)
      have h2 : ∀ x ∈ rest, x.1 = key200 x.2.1 :=
        fun x hx => hentry x (List.mem_cons_of_mem e hx)
      show key200 e.2.1 :: ((rest.map (fun e => (e.2.1, e.2.2))).map
        (fun p => key200 p.1)) = e.1 :: keysOf rest
      rw [← h1, ih h2]
  have hV : ((M.map (fun e => (e.2.1, e.2.2))).map
      (fun p => key200 p.1)).Nodup := by
    rw [heq]
    exact hkeys
  have hS : ((List.insertionSort fusedOrder
      (M.map (fun e => (e.2.1, e.2.2)))).map (fun p => key200 p.1)).Nodup :=
    (((List.perm_insertionSort fusedOrder _).map _).nodup_iff).mpr hV
  exact ((List.take_sublist _ _).map _).nodup hS

/-- Claim C2: hybrid RRF fusion gives every merged entry a fused score equal
to the sum of `weight / (60 + rank + 1)` over its occurrences in the two
ranked lists (ranks from 0, semantic weight on the semantic list, keyword
weight on the keyword list), where document identity is the first 200
characters of content (so the output carries pairwise distinct keys); the
merged entries are sorted by fused score descending and truncated
to `top_k`. -/
theorem C2_rrf_fusion (semanticResults keywordResults : List (Document × ℚ))
    (semanticWeight keywordWeight : ℚ) (topK : ℕ) :
    (reciprocal_rank_fusion semanticResults keywordResults semanticWeight
        keywordWeight topK 60).length ≤ topK
    ∧ (∀ p ∈ reciprocal_rank_fusion semanticResults keywordResults semanticWeight
        keywordWeight topK 60,
        p.2 = claimFusedScore semanticWeight keywordWeight 60 semanticResults
          keywordResults (key200 p.1))
    ∧ List.Pairwise (fun a b : Document × ℚ => b.2 ≤ a.2)
        (reciprocal_rank_fusion semanticResults keywordResults semanticWeight
          keywordWeight topK 60)
    ∧ ((reciprocal_rank_fusion semanticResults keywordResults semanticWeight
        keywordWeight topK 60).map (fun p => key200 p.1)).Nodup := by
  have hkeys : (keysOf (addListAux keywordWeight 60 0 keywordResults
      (addListAux semanticWeight 60 0 semanticResults []))).Nodup :=
    addListAux_keys_nodup _ _ _ _ _
      (addListAux_keys_nodup _ _ _ _ _ (by simp [keysOf]))
  have hentry : ∀ e ∈ addListAux keywordWeight 60 0 keywordResults
      (addListAux semanticWeight 60 0 semanticResults []),
      e.1 = key200 e.2.1 :=
    addListAux_entry_key _ _ _ _ _
      (addListAux_entry_key _ _ _ _ _ (fun e he => absurd he (List.not_mem_nil e)))
  refine ⟨?_, ?_, ?_, ?_⟩
  · rw [reciprocal_rank_fusion]
    exact List.length_take_le _ _
  · intro p hp
    rw [reciprocal_rank_fusion] at hp
    have hp2 := (List.take_sublist _ _).subset hp
    have hp3 := (List.mem_insertionSort fusedOrder).mp hp2
    obtain ⟨e, he, hpe⟩ := List.mem_map.mp hp3
    have hsc : e.2.2 = keyScore (addListAux keywordWeight 60 0 keywordResults
        (addListAux semanticWeight 60 0 semanticResults [])) e.1 :=
      mem_keyScore hkeys he
    rw [addListAux_keyScore, addListAux_keyScore] at hsc
    have hkey : e.1 = key200 e.2.1 := hentry e he
    have hp1 : p.1 = e.2.1 := by rw [← hpe]
    have hp2s : p.2 = e.2.2 := by rw [← hpe]
    rw [hp2s, hsc, claimFusedScore, hp1, ← hkey]
    show keyScore [] e.1 + _ + _ = _
    rw [show keyScore [] e.1 = 0 from rfl]
    ring
  · rw [reciprocal_rank_fusion]
    exact (List.sorted_insertionSort fusedOrder _).sublist (List.take_sublist _ _)
  · rw [reciprocal_rank_fusion]
    exact sortedValues_keys_nodup hkeys hentry topK

/-- Witness for C2 at a concrete pair of ranked lists: discharges the
membership hypothesis at a concrete fused entry. -/
theorem C2_rrf_fusion_witness :
    ((⟨"a", []⟩, (1 : ℚ)) ∈ reciprocal_rank_fusion [(⟨"a", []⟩, 5)] [] 61 0 3 60)
    ∧ (1 : ℚ) = claimFusedScore 61 0 60 [(⟨"a", []⟩, 5)] []
        (key200 (⟨"a", []⟩ : Document)) := by
  have hm : ((⟨"a", []⟩, (1 : ℚ)) ∈ reciprocal_rank_fusion
      [(⟨"a", []⟩, 5)] [] 61 0 3 60) := by
    norm_num [reciprocal_rank_fusion, addListAux, upsert, key200,
      List.insertionSort, List.orderedInsert]
  exact ⟨hm, (C2_rrf_fusion [(⟨"a", []⟩, 5)] [] 61 0 3).2.1 _ hm⟩

/-- Claim C3: fusing semantic list `[A, B, C]` with keyword list `[B, A, D]`
under the default weights 0.7 / 0.3 and `rrf_k = 60` (for any input scores,
which RRF ignores) yields exactly `[A, B, C, D]`, so both `A` and `B` rank
strictly above both `C` and `D`; determinism holds definitionally, the
embedding being a pure function of the two input lists. -/
theorem C3_rrf_default_ranking (A B C D : Document) (sA sB sC tB tA tD : ℚ)
    (hAB : key200 A ≠ key200 B) (hAC : key200 A ≠ key200 C)
    (hAD : key200 A ≠ key200 D) (hBC : key200 B ≠ key200 C)
    (hBD : key200 B ≠ key200 D) (hCD : key200 C ≠ key200 D) :
    ((reciprocal_rank_fusion [(A, sA), (B, sB), (C, sC)]
        [(B, tB), (A, tA), (D, tD)] (7/10) (3/10) 10 60).map Prod.fst
      = [A, B, C, D])
    ∧ ((reciprocal_rank_fusion [(A, sA), (B, sB), (C, sC)]
        [(B, tB), (A, tA), (D, tD)] (7/10) (3/10) 10 60).map Prod.fst).indexOf A
      < ((reciprocal_rank_fusion [(A, sA), (B, sB), (C, sC)]
        [(B, tB), (A, tA), (D, tD)] (7/10) (3/10) 10 60).map Prod.fst).indexOf C
    ∧ ((reciprocal_rank_fusion [(A, sA), (B, sB), (C, sC)]
        [(B, tB), (A, tA), (D, tD)] (7/10) (3/10) 10 60).map Prod.fst).indexOf A
      < ((reciprocal_rank_fusion [(A, sA), (B, sB), (C, sC)]
        [(B, tB), (A, tA), (D, tD)] (7/10) (3/10) 10 60).map Prod.fst).indexOf D
    ∧ ((reciprocal_rank_fusion [(A, sA), (B, sB), (C, sC)]
        [(B, tB), (A, tA), (D, tD)] (7/10) (3/10) 10 60).map Prod.fst).indexOf B
      < ((reciprocal_rank_fusion [(A, sA), (B, sB), (C, sC)]
        [(B, tB), (A, tA), (D, tD)] (7/10) (3/10) 10 60).map Prod.fst).indexOf C
    ∧ ((reciprocal_rank_fusion [(A, sA), (B, sB), (C, sC)]
        [(B, tB), (A, tA), (D, tD)] (7/10) (3/10) 10 60).map Prod.fst).indexOf B
      < ((reciprocal_rank_fusion [(A, sA), (B, sB), (C, sC)]
        [(B, tB), (A, tA), (D, tD)] (7/10) (3/10) 10 60).map Prod.fst).indexOf D := by
  have hBA := hAB.symm
  have hCA := hAC.symm
  have hDA := hAD.symm
  have hCB := hBC.symm
  have hDB := hBD.symm
  have hDC := hCD.symm
  have hout : reciprocal_rank_fusion [(A, sA), (B, sB), (C, sC)]
      [(B, tB), (A, tA), (D, tD)] (7/10) (3/10) 10 60
      = [(A, 617/37820), (B, 613/37820), (C, 1/90), (D, 1/210)] := by
    norm_num [reciprocal_rank_fusion, addListAux, upsert, List.insertionSort,
      List.orderedInsert, fusedOrder, hAB, hAC, hAD, hBC, hBD, hCD,
      hBA, hCA, hDA, hCB, hDB, hDC]
  have hmap : (reciprocal_rank_fusion [(A, sA), (B, sB), (C, sC)]
      [(B, tB), (A, tA), (D, tD)] (7/10) (3/10) 10 60).map Prod.fst
      = [A, B, C, D] := by
    rw [hout]
    rfl
  have dAC : A ≠ C := fun h => hAC (congrArg key200 h)
  have dAD : A ≠ D := fun h => hAD (congrArg key200 h)
  have dBC : B ≠ C := fun h => hBC (congrArg key200 h)
  have dBD : B ≠ D := fun h => hBD (congrArg key200 h)
  have dAB : A ≠ B := fun h => hAB (congrArg key200 h)
  have dCD : C ≠ D := fun h => hCD (congrArg key200 h)
  rw [hmap]
  have hiA : List.indexOf A [A, B, C, D] = 0 := List.indexOf_cons_self A _
  have hiB : List.indexOf B [A, B, C, D] = 1 := by
    rw [List.indexOf_cons_ne _ dAB, List.indexOf_cons_self]
  have hiC : List.indexOf C [A, B, C, D] = 2 := by
    rw [List.indexOf_cons_ne _ dAC, List.indexOf_cons_ne _ dBC,
      List.indexOf_cons_self]
  have hiD : List.indexOf D [A, B, C, D] = 3 := by
    rw [List.indexOf_cons_ne _ dAD, List.indexOf_cons_ne _ dBD,
      List.indexOf_cons_ne _ dCD, List.indexOf_cons_self]
  refine ⟨rfl, ?_, ?_, ?_, ?_⟩
  · rw [hiA, hiC]; omega
  · rw [hiA, hiD]; omega
  · rw [hiB, hiC]; omega
  · rw [hiB, hiD]; omega

/-- Witness for C3 at four concrete documents with pairwise distinct
200-character content keys. -/
theorem C3_rrf_default_ranking_witness :
    (key200 ⟨"a", []⟩ ≠ key200 ⟨"b", []⟩ ∧ key200 ⟨"a", []⟩ ≠ key200 ⟨"c", []⟩
      ∧ key200 ⟨"a", []⟩ ≠ key200 ⟨"d", []⟩ ∧ key200 ⟨"b", []⟩ ≠ key200 ⟨"c", []⟩
      ∧ key200 ⟨"b", []⟩ ≠ key200 ⟨"d", []⟩ ∧ key200 ⟨"c", []⟩ ≠ key200 ⟨"d", []⟩)
    ∧ ((reciprocal_rank_fusion [(⟨"a", []⟩, 0), (⟨"b", []⟩, 0), (⟨"c", []⟩, 0)]
        [(⟨"b", []⟩, 0), (⟨"a", []⟩, 0), (⟨"d", []⟩, 0)] (7/10) (3/10) 10 60).map
          Prod.fst
      = [⟨"a", []⟩, ⟨"b", []⟩, ⟨"c", []⟩, ⟨"d", []⟩]) :=
  ⟨⟨by decide, by decide, by decide, by decide, by decide, by decide⟩,
    (C3_rrf_default_ranking ⟨"a", []⟩ ⟨"b", []⟩ ⟨"c", []⟩ ⟨"d", []⟩ 0 0 0 0 0 0
      (by decide) (by decide) (by decide) (by decide) (by decide) (by decide)).1⟩

/-! ### Reranker (`NVIDIAReranker.rerank`, reranker.py lines 59-127)

The external NVIDIA reranking client is abstracted as `call`: `none` models
the `compress_documents` call raising an exception (caught by the
`except` branch), and `some reranked` models a successful call whose result
already carries the extracted `relevance_score` per document.  The
client/configuration state keeps only what `rerank` consults. -/

/-- The configuration and client state a `NVIDIAReranker` consults:
`config.enable_reranking`, `config.retriever.top_n`, and whether
`self._client` is set. -/
structure RerankerState where
  enable_reranking : Bool
  cfg_top_n : ℕ
  hasClient : Bool

/-- Python `top_n or self.config.retriever.top_n` (reranker.py lines 78, 84):
`None` and `0` are both falsy, so an explicit `top_n=0` falls back to the
configured value. -/
def resolveTopN (topN : Option ℕ) (cfgN : ℕ) : ℕ :=
  match topN with
  | none => cfgN
  | some t => if t = 0 then cfgN else t

/-- The descending sort by relevance score
(`results.sort(key=lambda x: x[1], reverse=True)`). -/
def relOrder (p q : Document × ℚ) : Prop := q.2 ≤ p.2

instance : DecidableRel relOrder := fun p q => by
  unfold relOrder; exact inferInstance

/-- Embedding of `NVIDIAReranker.rerank`.  The embedding is total: every
Python path either returns a list or is the caught-exception path
(`call = none`). -/
def NVIDIAReranker.rerank (st : RerankerState)
    (call : Option (List (Document × ℚ))) (_query : String)
    (documents : List (Document × ℚ)) (topN : Option ℕ) :
    List (Document × ℚ) :=
  if ¬(st.enable_reranking && st.hasClient) then
    documents.take (resolveTopN topN st.cfg_top_n)
  else if documents.isEmpty then []
  else
    match call with
    | none => documents.take (resolveTopN topN st.cfg_top_n)
    | some reranked =>
      (List.insertionSort relOrder reranked).take (resolveTopN topN st.cfg_top_n)

/-- Counterexample to C4 as stated: with reranking disabled, configured
`top_n = 5` and an explicit `top_n = 0` argument, the code returns the first
5 documents, not the first 0: Python's `top_n or default` treats `0` as
unset. -/
theorem C4_rerank_counterexample :
    NVIDIAReranker.rerank ⟨false, 5, false⟩ none "q" [(⟨"d", []⟩, 1)] (some 0)
      ≠ List.take 0 [((⟨"d", []⟩ : Document), (1 : ℚ))] := by
  decide

/-- Claim C4 (amended): `rerank` with reranking disabled or no initialized
client returns exactly the first `n` documents of the input unchanged, and
when the external call raises, the caught-exception path returns the same
first-`n` pass-through — where `n` is the requested `top_n` if provided and
nonzero, and the configured `top_n` otherwise (an explicit `top_n = 0` falls
back to the configured value, since Python `or` treats 0 as unset).  The
embedding is total, so neither path raises. -/
theorem C4_rerank_passthrough (st : RerankerState)
    (call : Option (List (Document × ℚ))) (query : String)
    (documents : List (Document × ℚ)) (topN : Option ℕ) :
    (¬(st.enable_reranking = true ∧ st.hasClient = true) →
      NVIDIAReranker.rerank st call query documents topN
        = documents.take (resolveTopN topN st.cfg_top_n))
    ∧ (st.enable_reranking = true → st.hasClient = true → call = none →
      NVIDIAReranker.rerank st call query documents topN
        = documents.take (resolveTopN topN st.cfg_top_n)) := by
  constructor
  · intro h
    rw [NVIDIAReranker.rerank.eq_def, if_pos]
    intro hb
    exact h (by
      rcases Bool.and_eq_true_iff.mp hb with ⟨h1, h2⟩
      exact ⟨h1, h2⟩)
  · intro h1 h2 h3
    subst h3
    rw [NVIDIAReranker.rerank.eq_def, if_neg (by rw [h1, h2]; exact fun hc => hc rfl)]
    by_cases hd : documents.isEmpty
    · rw [if_pos hd]
      rw [List.isEmpty_iff.mp hd, List.take_nil]
    · rw [if_neg hd]

/-- Witness for C4's amended theorem: a disabled reranker passes through the
first `top_n = 2` of three documents unchanged, and the caught-exception
path does the same. -/
theorem C4_rerank_passthrough_witness :
    (¬((false = true) ∧ (false = true))
      ∧ NVIDIAReranker.rerank ⟨false, 5, false⟩ none "q"
          [(⟨"d1", []⟩, 1), (⟨"d2", []⟩, 2), (⟨"d3", []⟩, 3)] (some 2)
        = [(⟨"d1", []⟩, 1), (⟨"d2", []⟩, 2)])
    ∧ (NVIDIAReranker.rerank ⟨true, 5, true⟩ none "q"
          [(⟨"d1", []⟩, 1), (⟨"d2", []⟩, 2), (⟨"d3", []⟩, 3)] (some 2)
        = [(⟨"d1", []⟩, 1), (⟨"d2", []⟩, 2)]) := by
  constructor
  · refine ⟨by decide, ?_⟩
    rw [(C4_rerank_passthrough ⟨false, 5, false⟩ none "q"
      [(⟨"d1", []⟩, 1), (⟨"d2", []⟩, 2), (⟨"d3", []⟩, 3)] (some 2)).1
      (by decide)]
    rfl
  · rw [(C4_rerank_passthrough ⟨true, 5, true⟩ none "q"
      [(⟨"d1", []⟩, 1), (⟨"d2", []⟩, 2), (⟨"d3", []⟩, 3)] (some 2)).2
      rfl rfl rfl]
    rfl

/-! ### Metrics collector (`RAGMetrics`, metrics.py)

`time.time()` and `datetime.now().isoformat()` are external inputs: every
operation that reads the clock takes the reading as an explicit argument.
Python `round(x, d)` on our exact-rational model of float values is
round-half-to-even at `d` decimal digits.  `_stage_timers` is a dict from
stage name to start time, embedded as an insertion-ordered association
list. -/

/-- Round half to even (Python `round` on the modelled rational value). -/
def roundHalfEven (x : ℚ) : ℤ :=
  if x - ⌊x⌋ < 1/2 then ⌊x⌋
  else if 1/2 < x - ⌊x⌋ then ⌊x⌋ + 1
  else if ⌊x⌋ % 2 = 0 then ⌊x⌋ else ⌊x⌋ + 1

/-- Python `round(x, d)`. -/
def pyRound (x : ℚ) (d : ℕ) : ℚ := (roundHalfEven (x * 10 ^ d) : ℚ) / 10 ^ d

/-- Embedding of the `StageMetric` dataclass. -/
structure StageMetric where
  stage : String
  latency_ms : ℚ
  input_count : ℕ := 0
  output_count : ℕ := 0
  metadata : List (String × MetaVal) := []
deriving DecidableEq

/-- Embedding of the `QueryMetric` dataclass. -/
structure QueryMetric where
  query : String
  timestamp : String
  total_latency_ms : ℚ
  stages : List StageMetric
  chunks_retrieved : ℕ
  chunks_after_rerank : ℕ
  answer_length : ℕ
  success : Bool
  error : Option String := none
deriving DecidableEq

/-- State of a `RAGMetrics` collector. -/
structure RAGMetrics where
  enabled : Bool
  queries : List QueryMetric
  stageTimers : List (String × ℚ)

/-- `RAGMetrics(enabled=...)`. -/
def RAGMetrics.init (enabled : Bool) : RAGMetrics := ⟨enabled, [], []⟩

/-- Lookup in the `_stage_timers` dict. -/
def timerFind : List (String × ℚ) → String → Option ℚ
  | [], _ => none
  | (k, v) :: rest, key => if k = key then some v else timerFind rest key

/-- Assignment `self._stage_timers[stage] = time.time()`. -/
def timerSet : List (String × ℚ) → String → ℚ → List (String × ℚ)
  | [], key, v => [(key, v)]
  | (k, w) :: rest, key, v =>
    if k = key then (k, v) :: rest else (k, w) :: timerSet rest key v

/-- Deletion `del self._stage_timers[stage]`. -/
def timerRemove : List (String × ℚ) → String → List (String × ℚ)
  | [], _ => []
  | (k, w) :: rest, key =>
    if k = key then rest else (k, w) :: timerRemove rest key

/-- Embedding of `RAGMetrics.start_timer` (metrics.py lines 59-62); `now` is
the `time.time()` reading in seconds. -/
def RAGMetrics.start_timer (st : RAGMetrics) (stage : String) (now : ℚ) :
    RAGMetrics :=
  if st.enabled then { st with stageTimers := timerSet st.stageTimers stage now }
  else st

/-- Embedding of `RAGMetrics.stop_timer` (metrics.py lines 64-91): returns
the optional `StageMetric` and the successor state. -/
def RAGMetrics.stop_timer (st : RAGMetrics) (stage : String) (now : ℚ)
    (input_count output_count : ℕ) (metadata : List (String × MetaVal)) :
    Option StageMetric × RAGMetrics :=
  if ¬st.enabled then (none, st)
  else
    match timerFind st.stageTimers stage with
    | none => (none, st)
    | some start =>
      (some { stage := stage
              latency_ms := pyRound ((now - start) * 1000) 2
              input_count := input_count
              output_count := output_count
              metadata := metadata },
       { st with stageTimers := timerRemove st.stageTimers stage })

/-- Embedding of `RAGMetrics.record_query` (metrics.py lines 93-139): returns
the `QueryMetric` and the successor state; `ts` is the
`datetime.now().isoformat()` reading. -/
def RAGMetrics.record_query (st : RAGMetrics) (query ts : String)
    (stages : List StageMetric) (chunks_retrieved chunks_after_rerank
      answer_length : ℕ) (success : Bool) (error : Option String) :
    QueryMetric × RAGMetrics :=
  if ¬st.enabled then
    ({ query := query, timestamp := ts, total_latency_ms := 0, stages := []
       chunks_retrieved := 0, chunks_after_rerank := 0, answer_length := 0
       success := success, error := error }, st)
  else
    let metric : QueryMetric :=
      { query := query, timestamp := ts
        total_latency_ms := pyRound ((stages.map (fun s => s.latency_ms)).sum) 2
        stages := stages
        chunks_retrieved := chunks_retrieved
        chunks_after_rerank := chunks_after_rerank
        answer_length := answer_length
        success := success, error := error }
    (metric, { st with queries := st.queries ++ [metric] })

/-- Minimum of a latency list (`min(times)`; 0 never used on an empty list). -/
def listMinQ : List ℚ → ℚ
  | [] => 0
  | x :: xs => xs.foldl min x

/-- Maximum of a latency list (`max(times)`). -/
def listMaxQ : List ℚ → ℚ
  | [] => 0
  | x :: xs => xs.foldl max x

/-- `stage_latencies.setdefault(stage, []).append(ms)` over all stages of
all recorded queries, keys in first-seen order. -/
def appendLat : List (String × List ℚ) → String → ℚ → List (String × List ℚ)
  | [], key, v => [(key, [v])]
  | (k, vs) :: rest, key, v =>
    if k = key then (k, vs ++ [v]) :: rest else (k, vs) :: appendLat rest key v

/-- The `stage_latencies` accumulation loop of `get_summary`. -/
def collectStageLats (qs : List QueryMetric) : List (String × List ℚ) :=
  qs.foldl (fun acc q =>
    q.stages.foldl (fun acc2 s => appendLat acc2 s.stage s.latency_ms) acc) []

/-- Result of `RAGMetrics.get_summary` (metrics.py lines 141-184): either the
"No queries recorded yet" message or the aggregate record. -/
inductive SummaryResult where
  | noQueries
  | summary (total_queries successful_queries : ℕ) (error_rate : ℚ)
      (avg_total_latency_ms min_total_latency_ms max_total_latency_ms : ℚ)
      (avg_chunks_retrieved avg_chunks_after_rerank avg_answer_length : ℚ)
      (stage_latencies : List (String × ℚ × ℚ × ℚ × ℕ))
deriving DecidableEq

/-- Embedding of `RAGMetrics.get_summary`. -/
def RAGMetrics.get_summary (st : RAGMetrics) : SummaryResult :=
  if st.queries.isEmpty then .noQueries
  else
    let total := st.queries.length
    let successful := (st.queries.filter (fun q => q.success)).length
    let totals := st.queries.map (fun q => q.total_latency_ms)
    .summary total successful
      (pyRound (((total : ℚ) - (successful : ℚ)) / (total : ℚ)) 4)
      (pyRound (totals.sum / (total : ℚ)) 2)
      (pyRound (listMinQ totals) 2)
      (pyRound (listMaxQ totals) 2)
      (pyRound (((st.queries.map (fun q => (q.chunks_retrieved : ℚ))).sum)
        / (total : ℚ)) 1)
      (pyRound (((st.queries.map (fun q => (q.chunks_after_rerank : ℚ))).sum)
        / (total : ℚ)) 1)
      (pyRound (((st.queries.map (fun q => (q.answer_length : ℚ))).sum)
        / (total : ℚ)) 0)
      ((collectStageLats st.queries).map (fun e =>
        (e.1, pyRound (e.2.sum / (e.2.length : ℚ)) 2, pyRound (listMinQ e.2) 2,
          pyRound (listMaxQ e.2) 2, e.2.length)))

/-- Embedding of `RAGMetrics.reset`. -/
def RAGMetrics.reset (st : RAGMetrics) : RAGMetrics :=
  { st with queries := [], stageTimers := [] }

/-- One state-mutating operation on the collector, with its external clock
readings as payload. -/
inductive MetricsOp where
  | start (stage : String) (now : ℚ)
  | stop (stage : String) (now : ℚ) (input_count output_count : ℕ)
      (metadata : List (String × MetaVal))
  | record (query ts : String) (stages : List StageMetric)
      (chunks_retrieved chunks_after_rerank answer_length : ℕ)
      (success : Bool) (error : Option String)
  | reset

/-- State transition of one operation. -/
def stepOp (st : RAGMetrics) : MetricsOp → RAGMetrics
  | .start stage now => st.start_timer stage now
  | .stop stage now ic oc md => (st.stop_timer stage now ic oc md).2
  | .record q ts sg cr car al su er =>
    (st.record_query q ts sg cr car al su er).2
  | .reset => st.reset

/-- Run a sequence of operations from a state. -/
def runOps (st : RAGMetrics) (ops : List MetricsOp) : RAGMetrics :=
  ops.foldl stepOp st

/-- Whether an operation is `start_timer` for the given stage. -/
def MetricsOp.isStartOf (stage : String) : MetricsOp → Bool
  | .start s _ => s == stage
  | _ => false

lemma disabled_run {st : RAGMetrics} (h1 : st.enabled = false)
    (h2 : st.queries = []) (ops : List MetricsOp) :
    (runOps st ops).enabled = false ∧ (runOps st ops).queries = [] := by
  induction ops generalizing st with
  | nil => exact ⟨h1, h2⟩
  | cons op rest ih =>
    have hstep : runOps st (op :: rest) = runOps (stepOp st op) rest := rfl
    rw [hstep]
    apply ih
    · cases op with
      | start stage now => simp [stepOp, RAGMetrics.start_timer, h1]
      | stop stage now ic oc md => simp [stepOp, RAGMetrics.stop_timer, h1]
      | record q ts sg cr car al su er =>
        simp [stepOp, RAGMetrics.record_query, h1]
      | reset => simp [stepOp, RAGMetrics.reset, h1]
    · cases op with
      | start stage now => simp [stepOp, RAGMetrics.start_timer, h1, h2]
      | stop stage now ic oc md => simp [stepOp, RAGMetrics.stop_timer, h1, h2]
      | record q ts sg cr car al su er =>
        simp [stepOp, RAGMetrics.record_query, h1, h2]
      | reset => simp [stepOp, RAGMetrics.reset]

/-- Claim C8: on a collector constructed disabled, after any sequence of
operations, `record_query` returns a zeroed record (zero total latency,
empty stage list, zero chunk and answer counts), appends nothing to the
query history (which stays empty), and `get_summary` reports that no
queries were recorded, both before and after the call. -/
theorem C8_disabled_collector (ops : List MetricsOp) (q ts : String)
    (stages : List StageMetric) (cr car al : ℕ) (succ : Bool)
    (err : Option String) :
    ((runOps (RAGMetrics.init false) ops).record_query q ts stages cr car al
        succ err).1.total_latency_ms = 0
    ∧ ((runOps (RAGMetrics.init false) ops).record_query q ts stages cr car al
        succ err).1.stages = []
    ∧ ((runOps (RAGMetrics.init false) ops).record_query q ts stages cr car al
        succ err).1.chunks_retrieved = 0
    ∧ ((runOps (RAGMetrics.init false) ops).record_query q ts stages cr car al
        succ err).1.chunks_after_rerank = 0
    ∧ ((runOps (RAGMetrics.init false) ops).record_query q ts stages cr car al
        succ err).1.answer_length = 0
    ∧ (runOps (RAGMetrics.init false) ops).queries = []
    ∧ ((runOps (RAGMetrics.init false) ops).record_query q ts stages cr car al
        succ err).2.queries = []
    ∧ (runOps (RAGMetrics.init false) ops).get_summary = SummaryResult.noQueries
    ∧ ((runOps (RAGMetrics.init false) ops).record_query q ts stages cr car al
        succ err).2.get_summary = SummaryResult.noQueries := by
  obtain ⟨he, hq⟩ := @disabled_run (RAGMetrics.init false) rfl rfl ops
  have hrec : (runOps (RAGMetrics.init false) ops).record_query q ts stages
      cr car al succ err
      = ({ query := q, timestamp := ts, total_latency_ms := 0, stages := []
           chunks_retrieved := 0, chunks_after_rerank := 0, answer_length := 0
           success := succ, error := err },
         runOps (RAGMetrics.init false) ops) := by
    rw [RAGMetrics.record_query.eq_def, if_pos]
    rw [he]
    decide
  rw [hrec]
  refine ⟨rfl, rfl, rfl, rfl, rfl, hq, hq, ?_, ?_⟩
  · rw [RAGMetrics.get_summary.eq_def, if_pos (by rw [hq]; rfl)]
  · rw [RAGMetrics.get_summary.eq_def, if_pos (by rw [hq]; rfl)]

lemma timerFind_set_ne {m : List (String × ℚ)} {k stage : String} {now : ℚ}
    (h : k ≠ stage) : timerFind (timerSet m k now) stage = timerFind m stage := by
  induction m with
  | nil => simp [timerSet, timerFind, h]
  | cons e rest ih =>
    by_cases he : e.1 = k
    · rw [show (e :: rest) = ((e.1, e.2) :: rest) from rfl, timerSet,
        if_pos he, timerFind, timerFind, if_neg (he ▸ h), if_neg (he ▸ h)]
    · rw [show (e :: rest) = ((e.1, e.2) :: rest) from rfl, timerSet,
        if_neg he, timerFind, timerFind, ih]

lemma timerFind_remove_none {m : List (String × ℚ)} {key stage : String}
    (h : timerFind m stage = none) :
    timerFind (timerRemove m key) stage = none := by
  induction m with
  | nil => rfl
  | cons e rest ih =>
    rw [show (e :: rest) = ((e.1, e.2) :: rest) from rfl, timerFind] at h
    by_cases hs : e.1 = stage
    · rw [if_pos hs] at h
      exact absurd h (by simp)
    · rw [if_neg hs] at h
      rw [show (e :: rest) = ((e.1, e.2) :: rest) from rfl, timerRemove]
      by_cases hk : e.1 = key
      · rw [if_pos hk]
        exact h
      · rw [if_neg hk, timerFind, if_neg hs]
        exact ih h

lemma no_start_timers {stage : String} (ops : List MetricsOp)
    (h : ∀ op ∈ ops, MetricsOp.isStartOf stage op = false) :
    ∀ st : RAGMetrics, timerFind st.stageTimers stage = none →
      timerFind (runOps st ops).stageTimers stage = none := by
  induction ops with
  | nil => exact fun st hst => hst
  | cons op rest ih =>
    intro st hst
    have hrest : ∀ o ∈ rest, MetricsOp.isStartOf stage o = false :=
      fun o ho => h o (List.mem_cons_of_mem op ho)
    have hstep : runOps st (op :: rest) = runOps (stepOp st op) rest := rfl
    rw [hstep]
    apply ih hrest
    cases op with
    | start s now =>
      have hne : s ≠ stage := by
        have := h (.start s now) (List.mem_cons_self _ _)
        rw [MetricsOp.isStartOf] at this
        exact fun he => by rw [he] at this; simp at this
      by_cases hen : st.enabled
      · rw [stepOp, RAGMetrics.start_timer, if_pos hen]
        exact (timerFind_set_ne hne).trans hst
      · rw [stepOp, RAGMetrics.start_timer, if_neg hen]
        exact hst
    | stop s now ic oc md =>
      rw [stepOp, RAGMetrics.stop_timer.eq_def]
      by_cases hen : ¬st.enabled
      · rw [if_pos hen]
        exact hst
      · rw [if_neg hen]
        cases hfind : timerFind st.stageTimers s with
        | none => exact hst
        | some v =>
          show timerFind (timerRemove st.stageTimers s) stage = none
          exact timerFind_remove_none hst
    | record q ts sg cr car al su er =>
      rw [stepOp, RAGMetrics.record_query.eq_def]
      by_cases hen : ¬st.enabled
      · rw [if_pos hen]
        exact hst
      · rw [if_neg hen]
        exact hst
    | reset =>
      rfl

/-- Claim C9: stopping a timer for a stage for which `start_timer` was never
called (in any collector history, enabled or disabled) returns no metric and
leaves the state unchanged; the embedding is total, so the call never
raises. -/
theorem C9_stop_without_start (enabled : Bool) (ops : List MetricsOp)
    (stage : String) (now : ℚ) (ic oc : ℕ) (md : List (String × MetaVal))
    (h : ∀ op ∈ ops, MetricsOp.isStartOf stage op = false) :
    (runOps (RAGMetrics.init enabled) ops).stop_timer stage now ic oc md
      = (none, runOps (RAGMetrics.init enabled) ops) := by
  have hf : timerFind (runOps (RAGMetrics.init enabled) ops).stageTimers stage
      = none :=
    no_start_timers ops h (RAGMetrics.init enabled) rfl
  rw [RAGMetrics.stop_timer.eq_def]
  by_cases hen : ¬(runOps (RAGMetrics.init enabled) ops).enabled
  · rw [if_pos hen]
  · rw [if_neg hen, hf]

/-- Witness for C9: a history that starts only stage `"a"`, then stops
stage `"b"`. -/
theorem C9_stop_without_start_witness :
    (∀ op ∈ [MetricsOp.start "a" 0],
      MetricsOp.isStartOf "b" op = false)
    ∧ (runOps (RAGMetrics.init true) [MetricsOp.start "a" 0]).stop_timer
        "b" 5 0 0 []
      = (none, runOps (RAGMetrics.init true) [MetricsOp.start "a" 0]) :=
  ⟨by decide,
    C9_stop_without_start true [MetricsOp.start "a" 0] "b" 5 0 0 [] (by decide)⟩

/-- Claim C10: on an enabled collector, the recorded query's
`total_latency_ms` is `round(sum of stage latencies, 2)`, the metric is
appended to the history, and an empty stage list yields total latency 0. -/
theorem C10_record_total_latency (st : RAGMetrics) (h : st.enabled = true)
    (q ts : String) (stages : List StageMetric) (cr car al : ℕ)
    (succ : Bool) (err : Option String) :
    ((st.record_query q ts stages cr car al succ err).1.total_latency_ms
      = pyRound ((stages.map (fun s => s.latency_ms)).sum) 2)
    ∧ ((st.record_query q ts stages cr car al succ err).2.queries
      = st.queries ++ [(st.record_query q ts stages cr car al succ err).1])
    ∧ (stages = [] →
      (st.record_query q ts stages cr car al succ err).1.total_latency_ms = 0) := by
  have hrec : st.record_query q ts stages cr car al succ err
      = ({ query := q, timestamp := ts
           total_latency_ms := pyRound ((stages.map (fun s => s.latency_ms)).sum) 2
           stages := stages, chunks_retrieved := cr, chunks_after_rerank := car
           answer_length := al, success := succ, error := err },
         { st with queries := st.queries ++
            [{ query := q, timestamp := ts
               total_latency_ms :=
                 pyRound ((stages.map (fun s => s.latency_ms)).sum) 2
               stages := stages, chunks_retrieved := cr
               chunks_after_rerank := car, answer_length := al
               success := succ, error := err }] }) := by
    rw [RAGMetrics.record_query.eq_def, if_neg (by rw [h]; simp)]
  rw [hrec]
  refine ⟨rfl, rfl, ?_⟩
  intro hst
  subst hst
  show pyRound (([] : List ℚ).sum) 2 = 0
  norm_num [pyRound, roundHalfEven]

/-- Witness for C10 on a concrete enabled collector and one stage. -/
theorem C10_record_total_latency_witness :
    ((RAGMetrics.init true).enabled = true)
    ∧ (((RAGMetrics.init true).record_query "q" "t"
          [{ stage := "s", latency_ms := 3 }] 1 1 1 true none).1.total_latency_ms
        = pyRound ((([{ stage := "s", latency_ms := (3 : ℚ) }]
            : List StageMetric).map (fun s => s.latency_ms)).sum) 2)
    ∧ (((RAGMetrics.init true).record_query "q" "t"
          [{ stage := "s", latency_ms := 3 }] 1 1 1 true none).2.queries
        = (RAGMetrics.init true).queries
            ++ [((RAGMetrics.init true).record_query "q" "t"
              [{ stage := "s", latency_ms := 3 }] 1 1 1 true none).1]) :=
  ⟨rfl,
    (C10_record_total_latency (RAGMetrics.init true) rfl "q" "t"
      [{ stage := "s", latency_ms := 3 }] 1 1 1 true none).1,
    (C10_record_total_latency (RAGMetrics.init true) rfl "q" "t"
      [{ stage := "s", latency_ms := 3 }] 1 1 1 true none).2.1⟩

/-! ### Chunker (`SemanticChunker`, chunker.py)

`chunk_documents` delegates the actual splitting to langchain's
`RecursiveCharacterTextSplitter`, an external dependency that is not part of
this repository; the splitter below is modelled from the spec (section 4.1):
try separators in priority order, recursively subdivide any piece still over
budget with the remaining separators, then merge adjacent pieces greedily up
to the budget, starting each new chunk with a trailing overlap from the end
of the previous one.  The configuration surface (spec section 6) is
`chunk_size` and `chunk_overlap`; the separator priority list is the fixed
default of `ChunkingConfig` (config.py lines 89-100).  We embed the
in-repository fallback branch (chunker.py lines 97-104): no tiktoken, the
splitter measures characters against budgets `chunk_size * 4` and
`chunk_overlap * 4`, and `token_length` is `len(text) // 4`
(chunker.py line 69). -/

/-- The chunking configuration surface: token budget and overlap. -/
structure ChunkingConfig where
  chunk_size : ℕ := 512
  chunk_overlap : ℕ := 128

/-- The fixed separator priority list of `ChunkingConfig`
(config.py lines 89-100), ending with the character-level fallback. -/
def defaultSeparators : List String :=
  ["\n\n\n", "\n\n", "\n", ". ", "? ", "! ", "; ", ", ", " ", ""]

/-- Embedding of `SemanticChunker.token_length` in the fallback branch:
`len(text) // 4`. -/
def token_length (text : String) : ℕ := text.length / 4

/-- Attach the separator to every piece but the last, so that concatenating
the pieces restores the original text. -/
def joinSepAll (sep : String) : List String → List String
  | [] => []
  | [p] => [p]
  | p :: ps => (p ++ sep) :: joinSepAll sep ps

/-- Modelled from the spec: one separator level of the recursive splitter;
the empty separator is the character-level fallback. -/
def splitKeep (sep : String) (t : String) : List String :=
  if sep = "" then t.data.map (fun c => String.mk [c])
  else joinSepAll sep (t.splitOn sep)

/-- Modelled from the spec: recursive-descent splitting — pieces over budget
are re-split with the remaining separators (spec section 4.1). -/
def splitRec (budget : ℕ) : List String → String → List String
  | [], t => [t]
  | sep :: rest, t =>
    (splitKeep sep t).flatMap (fun p =>
      if p.length ≤ budget then [p] else splitRec budget rest p)

/-- Drop pieces from the front of the previous chunk until the retained
trailing overlap fits the overlap budget. -/
def overlapTail (overlapBudget : ℕ) : List String → List String
  | [] => []
  | p :: ps =>
    if (String.join (p :: ps)).length ≤ overlapBudget then p :: ps
    else overlapTail overlapBudget ps

/-- Modelled from the spec: greedy merge of split pieces into chunks of at
most `budget` characters, each new chunk seeded with the trailing overlap of
the previous one. -/
def mergeAux (budget overlapBudget : ℕ) : List String → List String → List String
  | cur, [] => if String.join cur = "" then [] else [String.join cur]
  | cur, p :: ps =>
    if (String.join (cur ++ [p])).length ≤ budget then
      mergeAux budget overlapBudget (cur ++ [p]) ps
    else
      (if String.join cur = "" then [] else [String.join cur])
        ++ mergeAux budget overlapBudget (overlapTail overlapBudget cur ++ [p]) ps

/-- Modelled from the spec: the full text-splitting pipeline at character
granularity with budgets `chunk_size * 4` / `chunk_overlap * 4`
(the fallback construction in chunker.py lines 99-104). -/
def splitTextSpec (cfg : ChunkingConfig) (t : String) : List String :=
  mergeAux (cfg.chunk_size * 4) (cfg.chunk_overlap * 4) []
    (if t.length ≤ cfg.chunk_size * 4 then [t]
     else splitRec (cfg.chunk_size * 4) defaultSeparators t)

/-- `splitter.split_documents(documents)`: split every document's content,
each piece inheriting the source document's metadata. -/
def splitDocuments (cfg : ChunkingConfig) (documents : List Document) :
    List Document :=
  documents.flatMap (fun d => (splitTextSpec cfg d.page_content).map
    (fun t => { page_content := t, metadata := d.metadata }))

/-- `chunk.page_content[:150].replace("\n", " ").strip()`
(chunker.py line 125). -/
def preview (content : String) : String :=
  ((strTake content 150).replace "\n" " ").trim

/-- The `chunk.metadata.update({...})` enrichment of chunk `i` in a batch of
`n` (chunker.py lines 119-126). -/
def enrichChunk (source_name : String) (n i : ℕ) (c : Document) : Document :=
  { c with metadata := (dictUpdate c.metadata
      [("chunk_id", .natV i), ("chunk_index", .natV i),
       ("total_chunks", .natV n),
       ("chunk_size_tokens", .natV (token_length c.page_content)),
       ("source_name", .strV source_name),
       ("preview", .strV (preview c.page_content))]) }

/-- The `for i, chunk in enumerate(chunks)` enrichment loop. -/
def enrichAll (source_name : String) (n : ℕ) : ℕ → List Document → List Document
  | _, [] => []
  | i, c :: cs => enrichChunk source_name n i c :: enrichAll source_name n (i + 1) cs

/-- Embedding of the `ChunkStats` dataclass (chunker.py lines 30-39). -/
structure ChunkStats where
  total_chunks : ℕ
  avg_tokens_per_chunk : ℚ
  min_tokens : ℕ
  max_tokens : ℕ
  total_tokens : ℕ
  source_pages : ℕ
deriving DecidableEq

/-- `min(token_counts)` on a nonempty list. -/
def listMinN : List ℕ → ℕ
  | [] => 0
  | x :: xs => xs.foldl min x

/-- `max(token_counts)` on a nonempty list. -/
def listMaxN : List ℕ → ℕ
  | [] => 0
  | x :: xs => xs.foldl max x

/-- Embedding of `SemanticChunker.chunk_documents` (chunker.py lines 71-145)
in the fallback branch, with the external splitter modelled from the spec. -/
def chunk_documents (cfg : ChunkingConfig) (documents : List Document)
    (source_name : String) : List Document × ChunkStats :=
  let chunks := splitDocuments cfg documents
  if chunks.isEmpty then ([], ⟨0, 0, 0, 0, 0, 0⟩)
  else
    let n := chunks.length
    let token_counts := chunks.map (fun c => token_length c.page_content)
    let pages := (chunks.map (fun c =>
      (dictFind c.metadata "page").getD (.natV 0))).dedup
    (enrichAll source_name n 0 chunks,
     { total_chunks := n
       avg_tokens_per_chunk := (token_counts.sum : ℚ) / (n : ℚ)
       min_tokens := listMinN token_counts
       max_tokens := listMaxN token_counts
       total_tokens := token_counts.sum
       source_pages := pages.length })

lemma foldl_append_length (l : List String) :
    ∀ acc : String, (l.foldl (fun r s => r ++ s) acc).length
      = acc.length + (l.map String.length).sum := by
  induction l with
  | nil => intro acc; simp
  | cons s rest ih =>
    intro acc
    rw [List.foldl_cons, ih, List.map_cons, List.sum_cons, String.length_append]
    ring

lemma join_length (l : List String) :
    (String.join l).length = (l.map String.length).sum := by
  rw [String.join, foldl_append_length]
  simp

lemma join_append_length (cur : List String) (p : String) :
    (String.join (cur ++ [p])).length = (String.join cur).length + p.length := by
  rw [join_length, join_length, List.map_append, List.sum_append]
  simp

lemma overlapTail_le (overlapBudget : ℕ) (cur : List String) :
    (String.join (overlapTail overlapBudget cur)).length ≤ overlapBudget := by
  induction cur with
  | nil =>
    rw [overlapTail, show String.join [] = "" from rfl]
    exact Nat.zero_le _
  | cons p ps ih =>
    rw [overlapTail]
    by_cases h : (String.join (p :: ps)).length ≤ overlapBudget
    · rw [if_pos h]
      exact h
    · rw [if_neg h]
      exact ih

lemma splitRec_piece_le {budget : ℕ} (hb : 1 ≤ budget) :
    ∀ seps : List String, seps.getLast? = some "" →
    ∀ t p, p ∈ splitRec budget seps t → p.length ≤ budget := by
  intro seps
  induction seps with
  | nil =>
    intro hlast
    exact absurd hlast (by simp)
  | cons sep rest ih =>
    intro hlast t p hp
    rw [splitRec] at hp
    obtain ⟨piece, hpiece, hp2⟩ := List.mem_flatMap.mp hp
    by_cases hle : piece.length ≤ budget
    · rw [if_pos hle] at hp2
      rw [List.mem_singleton.mp hp2]
      exact hle
    · rw [if_neg hle] at hp2
      cases rest with
      | nil =>
        have hsep : sep = "" := by
          rw [List.getLast?_singleton] at hlast
          exact Option.some_injective _ hlast
        rw [hsep, splitKeep, if_pos rfl] at hpiece
        obtain ⟨ch, _, hch⟩ := List.mem_map.mp hpiece
        have : piece.length = 1 := by rw [← hch]; rfl
        omega
      | cons r2 rs =>
        have hlast2 : (r2 :: rs).getLast? = some "" := by
          rwa [List.getLast?_cons_cons] at hlast
        exact ih hlast2 piece p hp2

lemma mergeAux_chunk_le {budget overlapBudget : ℕ} :
    ∀ (pieces : List String), (∀ p ∈ pieces, p.length ≤ budget) →
    ∀ (cur : List String),
      (String.join cur).length ≤ overlapBudget + budget →
    ∀ c ∈ mergeAux budget overlapBudget cur pieces,
      c.length ≤ overlapBudget + budget := by
  intro pieces
  induction pieces with
  | nil =>
    intro _ cur hcur c hc
    rw [mergeAux] at hc
    by_cases h : String.join cur = ""
    · rw [if_pos h] at hc
      exact absurd hc (List.not_mem_nil c)
    · rw [if_neg h] at hc
      rw [List.mem_singleton.mp hc]
      exact hcur
  | cons p ps ih =>
    intro hpieces cur hcur c hc
    have hps : ∀ q ∈ ps, q.length ≤ budget :=
      fun q hq => hpieces q (List.mem_cons_of_mem p hq)
    have hp : p.length ≤ budget := hpieces p (List.mem_cons_self p ps)
    rw [mergeAux] at hc
    by_cases hfit : (String.join (cur ++ [p])).length ≤ budget
    · rw [if_pos hfit] at hc
      exact ih hps (cur ++ [p]) (le_trans hfit (Nat.le_add_left _ _)) c hc
    · rw [if_neg hfit] at hc
      rcases List.mem_append.mp hc with h1 | h2
      · by_cases hemp : String.join cur = ""
        · rw [if_pos hemp] at h1
          exact absurd h1 (List.not_mem_nil c)
        · rw [if_neg hemp] at h1
          rw [List.mem_singleton.mp h1]
          exact hcur
      · apply ih hps _ _ c h2
        rw [join_append_length]
        have := overlapTail_le overlapBudget cur
        omega

lemma splitTextSpec_chunk_le (cfg : ChunkingConfig) (h1 : 0 < cfg.chunk_size)
    (t : String) :
    ∀ c ∈ splitTextSpec cfg t,
      c.length ≤ cfg.chunk_overlap * 4 + cfg.chunk_size * 4 := by
  intro c hc
  rw [splitTextSpec] at hc
  refine mergeAux_chunk_le _ ?_ [] ?_ c hc
  · intro p hp
    by_cases hshort : t.length ≤ cfg.chunk_size * 4
    · rw [if_pos hshort] at hp
      rw [List.mem_singleton.mp hp]
      exact hshort
    · rw [if_neg hshort] at hp
      exact splitRec_piece_le (by omega) defaultSeparators (by rfl) t p hp
  · rw [show String.join [] = "" from rfl]
    exact Nat.zero_le _

lemma dictFind_dictSet_self (m : List (String × MetaVal)) (k : String)
    (v : MetaVal) : dictFind (dictSet m k v) k = some v := by
  induction m with
  | nil => simp [dictSet, dictFind]
  | cons e rest ih =>
    obtain ⟨k1, v1⟩ := e
    by_cases h : k1 = k
    · rw [dictSet, if_pos h, dictFind, if_pos h]
    · rw [dictSet, if_neg h, dictFind, if_neg h]
      exact ih

lemma dictFind_dictSet_ne (m : List (String × MetaVal)) {k k2 : String}
    (h : k ≠ k2) (v : MetaVal) :
    dictFind (dictSet m k v) k2 = dictFind m k2 := by
  induction m with
  | nil => simp [dictSet, dictFind, h]
  | cons e rest ih =>
    obtain ⟨k1, v1⟩ := e
    by_cases h1 : k1 = k
    · have hne : k1 ≠ k2 := by rw [h1]; exact h
      rw [dictSet, if_pos h1, dictFind, if_neg hne, dictFind, if_neg hne]
    · rw [dictSet, if_neg h1, dictFind, dictFind]
      by_cases h2 : k1 = k2
      · rw [if_pos h2, if_pos h2]
      · rw [if_neg h2, if_neg h2]
        exact ih

lemma enrichChunk_tokens (src : String) (n i : ℕ) (c : Document) :
    dictFind (enrichChunk src n i c).metadata "chunk_size_tokens"
      = some (.natV (token_length c.page_content)) := by
  have hmeta : (enrichChunk src n i c).metadata
      = dictSet (dictSet (dictSet (dictSet (dictSet (dictSet c.metadata
          "chunk_id" (.natV i)) "chunk_index" (.natV i)) "total_chunks" (.natV n))
          "chunk_size_tokens" (.natV (token_length c.page_content)))
          "source_name" (.strV src)) "preview" (.strV (preview c.page_content)) :=
    rfl
  rw [hmeta, dictFind_dictSet_ne _ (by decide) _,
    dictFind_dictSet_ne _ (by decide) _, dictFind_dictSet_self]

lemma enrichAll_mem {src : String} {n : ℕ} :
    ∀ (i : ℕ) (cs : List Document) (c : Document), c ∈ enrichAll src n i cs →
      ∃ j c0, c0 ∈ cs ∧ c = enrichChunk src n j c0 := by
  intro i cs
  induction cs generalizing i with
  | nil =>
    intro c hc
    exact absurd hc (List.not_mem_nil c)
  | cons d rest ih =>
    intro c hc
    rw [enrichAll] at hc
    rcases List.mem_cons.mp hc with h1 | h2
    · exact ⟨i, d, List.mem_cons_self _ _, h1⟩
    · obtain ⟨j, c0, hc0, he⟩ := ih (i + 1) c h2
      exact ⟨j, c0, List.mem_cons_of_mem _ hc0, he⟩

lemma splitDocuments_mem {cfg : ChunkingConfig} {documents : List Document}
    {c : Document} (hc : c ∈ splitDocuments cfg documents) :
    ∃ d ∈ documents, c.page_content ∈ splitTextSpec cfg d.page_content := by
  rw [splitDocuments] at hc
  obtain ⟨d, hd, hcd⟩ := List.mem_flatMap.mp hc
  obtain ⟨t, ht, hct⟩ := List.mem_map.mp hcd
  exact ⟨d, hd, by rw [← hct]; exact ht⟩

/-- Claim C5: every chunk produced by `chunk_documents` carries a
`chunk_size_tokens` metadata entry equal to `token_length` of its content,
and that token count is at most `2 * chunk_size`.  Hypotheses: a positive
`chunk_size` and `chunk_overlap ≤ chunk_size`; with `chunk_overlap`
exceeding `chunk_size` the external splitter constructor raises and no chunk
is produced, so the claim is vacuous there. -/
theorem C5_chunk_size_tokens_bound (cfg : ChunkingConfig)
    (documents : List Document) (source_name : String)
    (h1 : 0 < cfg.chunk_size) (h2 : cfg.chunk_overlap ≤ cfg.chunk_size) :
    ∀ c ∈ (chunk_documents cfg documents source_name).1,
      dictFind c.metadata "chunk_size_tokens"
        = some (.natV (token_length c.page_content))
      ∧ token_length c.page_content ≤ 2 * cfg.chunk_size := by
  intro c hc
  simp only [chunk_documents] at hc
  split at hc
  · exact absurd hc (List.not_mem_nil c)
  obtain ⟨j, c0, hc0, he⟩ :=
    enrichAll_mem 0 (splitDocuments cfg documents) c hc
  subst he
  constructor
  · exact enrichChunk_tokens source_name _ j c0
  · obtain ⟨d, _, hsplit⟩ := splitDocuments_mem hc0
    have hlen := splitTextSpec_chunk_le cfg h1 d.page_content _ hsplit
    show token_length c0.page_content ≤ 2 * cfg.chunk_size
    rw [token_length]
    omega

/-- Witness for C5 at the default 512/128 configuration and a concrete
document. -/
theorem C5_chunk_size_tokens_bound_witness :
    (0 < 512 ∧ 128 ≤ 512)
    ∧ (∀ c ∈ (chunk_documents ⟨512, 128⟩ [⟨"hello world", []⟩] "s").1,
      dictFind c.metadata "chunk_size_tokens"
        = some (.natV (token_length c.page_content))
      ∧ token_length c.page_content ≤ 2 * (512 : ℕ)) :=
  ⟨⟨by decide, by decide⟩,
    C5_chunk_size_tokens_bound ⟨512, 128⟩ [⟨"hello world", []⟩] "s"
      (by decide) (by decide)⟩

/-- Claim C6: chunking an empty document list returns the empty chunk list
and a `ChunkStats` whose six fields are all zero; the embedding is total, so
no error is raised. -/
theorem C6_empty_chunk (cfg : ChunkingConfig) (source_name : String) :
    chunk_documents cfg [] source_name
      = ([], { total_chunks := 0, avg_tokens_per_chunk := 0, min_tokens := 0
               max_tokens := 0, total_tokens := 0, source_pages := 0 }) := rfl

/-! ### Generator streaming (`NVIDIAGenerator.generate_stream`,
generator.py lines 156-194)

The external streaming LLM (`self._llm_streaming.astream`) is abstracted as
a `StreamOutcome`: either it yields a sequence of chunk contents and
finishes, or it yields some contents and then raises.  A chunk without a
truthy `content` attribute yields nothing, which is modelled by the empty
string being filtered out.  The uninitialized generator raises
`RuntimeError` before yielding anything, modelled by `Except.error`; a
returned `Except.ok` value is the complete sequence of yielded events. -/

/-- One formatted source entry (`NVIDIAGenerator._format_sources`,
generator.py lines 196-207). -/
structure FormattedSource where
  content : String
  metadata : List (String × MetaVal)
deriving DecidableEq

/-- Embedding of `NVIDIAGenerator._format_sources`: content truncated to a
500-character preview (with a `"..."` marker when truncated) and the chunk
metadata extended with the resolved `retrieval_score`. -/
def format_sources (documents : List (Document × ℚ)) : List FormattedSource :=
  documents.map (fun p =>
    { content := strTake p.1.page_content 500
        ++ (if 500 < p.1.page_content.length then "..." else "")
      metadata := dictSet p.1.metadata "retrieval_score" (.ratV p.2) })

/-- The events yielded by `generate_stream`, in SSE order. -/
inductive StreamEvent where
  | delta (content : String)
  | sources (payload : List FormattedSource) (chunks_retrieved : ℕ)
  | done
  | error (message : String)
deriving DecidableEq

/-- Outcome of the external `astream` iteration: the chunk contents it
yields, and whether it finishes normally or raises afterwards. -/
inductive StreamOutcome where
  | completes (chunkContents : List String)
  | failsAfter (chunkContents : List String) (message : String)

/-- Embedding of `NVIDIAGenerator.generate_stream`: `Except.error` models
the `RuntimeError` raised before any event when the generator is not
initialized; otherwise the full yielded event sequence is returned.  Chunks
with falsy content (the empty string) yield no `content` event
(generator.py line 183). -/
def generate_stream (ready : Bool) (_query : String)
    (documents : List (Document × ℚ)) (outcome : StreamOutcome) :
    Except String (List StreamEvent) :=
  if ¬ready then .error "Generator not initialized"
  else
    match outcome with
    | .completes cs =>
      .ok ((cs.filter (fun c => decide (c ≠ ""))).map .delta
        ++ [.sources (format_sources documents) documents.length, .done])
    | .failsAfter cs msg =>
      .ok ((cs.filter (fun c => decide (c ≠ ""))).map .delta ++ [.error msg])

/-- Claim C7: every event sequence yielded by `generate_stream` is either
zero or more `content`-delta events followed by exactly one `sources` event
and then exactly one `done` event, or zero or more delta events terminated
by a single `error` event with nothing after it. -/
theorem C7_stream_event_order (ready : Bool) (query : String)
    (documents : List (Document × ℚ)) (outcome : StreamOutcome)
    (events : List StreamEvent)
    (h : generate_stream ready query documents outcome = .ok events) :
    (∃ ds : List String, events = ds.map StreamEvent.delta
      ++ [StreamEvent.sources (format_sources documents) documents.length,
          StreamEvent.done])
    ∨ (∃ (ds : List String) (msg : String),
        events = ds.map StreamEvent.delta ++ [StreamEvent.error msg]) := by
  rw [generate_stream.eq_def] at h
  by_cases hr : ¬ready
  · rw [if_pos hr] at h
    exact absurd h (by simp)
  · rw [if_neg hr] at h
    cases outcome with
    | completes cs =>
      left
      refine ⟨cs.filter (fun c => decide (c ≠ "")), ?_⟩
      exact (Except.ok.injEq _ _ |>.mp h).symm
    | failsAfter cs msg =>
      right
      refine ⟨cs.filter (fun c => decide (c ≠ "")), msg, ?_⟩
      exact (Except.ok.injEq _ _ |>.mp h).symm

/-- Witness for C7 at a concrete successful stream and a concrete failing
stream. -/
theorem C7_stream_event_order_witness :
    (generate_stream true "q" [] (.completes ["hi", ""])
        = .ok [StreamEvent.delta "hi", StreamEvent.sources [] 0, StreamEvent.done]
      ∧ ((∃ ds : List String,
          [StreamEvent.delta "hi", StreamEvent.sources [] 0, StreamEvent.done]
            = ds.map StreamEvent.delta
              ++ [StreamEvent.sources (format_sources []) 0, StreamEvent.done])
        ∨ (∃ (ds : List String) (msg : String),
          [StreamEvent.delta "hi", StreamEvent.sources [] 0, StreamEvent.done]
            = ds.map StreamEvent.delta ++ [StreamEvent.error msg])))
    ∧ (generate_stream true "q" [] (.failsAfter ["hi"] "boom")
        = .ok [StreamEvent.delta "hi", StreamEvent.error "boom"]
      ∧ ((∃ ds : List String,
          [StreamEvent.delta "hi", StreamEvent.error "boom"]
            = ds.map StreamEvent.delta
              ++ [StreamEvent.sources (format_sources []) 0, StreamEvent.done])
        ∨ (∃ (ds : List String) (msg : String),
          [StreamEvent.delta "hi", StreamEvent.error "boom"]
            = ds.map StreamEvent.delta ++ [StreamEvent.error msg]))) := by
  refine ⟨⟨?_, ?_⟩, ⟨?_, ?_⟩⟩
  · rfl
  · exact C7_stream_event_order true "q" [] (.completes ["hi", ""]) _ rfl
  · rfl
  · exact C7_stream_event_order true "q" [] (.failsAfter ["hi"] "boom") _ rfl

end StudyRag
